import Mathlib

/-!
Verification of the lazy translation-group loading and key-resolution logic of
the `lingua-react` package.

The development shallowly embeds:
* the key resolver `__` of `src/useTranslations.ts` (lines 56-85), identical to
  the one in `src/useLazyTranslations.ts` (lines 197-226), including the
  semantics of JavaScript `String.prototype.replace` with a global regex built
  from a placeholder name and a string replacement (dollar-pattern
  substitution per ECMAScript GetSubstitution);
* the translation store managed by `LinguaProvider` in `src/lazyLoading.ts`:
  the `loadGroups` operation (lines 415-495), fetch settlement (the body of
  the fetch promise, lines 457-486), and the locale-change reset effect
  (lines 383-402).

JavaScript objects whose only observed operations are property lookup
(`translations`, the spread-merged table) or `Map.get/set/delete/clear`
(`pendingRequestsRef`) are modelled as functions `String → Option _`, which is
observationally exact for those operations.  JavaScript `Set` values are
modelled as duplicate-free lists built by `setAdd`.
-/

/-- A JavaScript value as it can occur inside the `translations` record:
a string leaf, a number, a boolean, `null`, `undefined`, or a nested object. -/
inductive JsValue where
  | vStr (s : String)
  | vNum (n : Int)
  | vBool (b : Bool)
  | vNull
  | vUndefined
  | vObj (fields : List (String × JsValue))

/-- Association lists standing for concrete JSON objects (e.g. the body of a
fetch response): group name to per-group table. -/
abbrev Table := List (String × JsValue)

/-- JavaScript property access `value[k]` on an object's own fields: the value,
or `undefined` when the property is absent. -/
def jsIndex : List (String × JsValue) → String → JsValue
  | [], _ => .vUndefined
  | (k, v) :: rest, g => if k = g then v else jsIndex rest g

/-- The walk loop of `__` (useTranslations.ts lines 61-69): for each key
segment, break when the value is `undefined` or `null`; index when it is an
object; otherwise set the value to `undefined` and break. -/
def walkKeys : JsValue → List String → JsValue
  | v, [] => v
  | .vUndefined, _ :: _ => .vUndefined
  | .vNull, _ :: _ => .vNull
  | .vObj fs, k :: rest => walkKeys (jsIndex fs k) rest
  | _, _ :: _ => .vUndefined

/-- Helper for `jsSplitDot`: accumulates the current segment (reversed). -/
def splitDotAux : List Char → List Char → List String
  | [], acc => [String.mk acc.reverse]
  | c :: cs, acc =>
      if c = '.' then String.mk acc.reverse :: splitDotAux cs [] else splitDotAux cs (c :: acc)

/-- JavaScript `key.split('.')`. -/
def jsSplitDot (s : String) : List String := splitDotAux s.toList []

/-- Whether the second list starts with the first. -/
def listStartsWith : List Char → List Char → Bool
  | [], _ => true
  | _ :: _, [] => false
  | a :: as, b :: bs => a = b && listStartsWith as bs

/-- ECMAScript GetSubstitution for a regex with no capture groups and no named
groups: in the replacement template, interpret the two-character sequences
dollar-dollar (a literal dollar), dollar-ampersand (the matched substring),
dollar-backquote (the text before the match) and dollar-quote (the text after
the match); every other character, including a dollar followed by anything
else, is copied literally. -/
def getSubst (matched before after : List Char) : List Char → List Char
  | [] => []
  | [c] => [c]
  | c :: d :: rest =>
      if c = '$' then
        if d = '$' then '$' :: getSubst matched before after rest
        else if d = '&' then matched ++ getSubst matched before after rest
        else if d = Char.ofNat 96 then before ++ getSubst matched before after rest
        else if d = Char.ofNat 39 then after ++ getSubst matched before after rest
        else c :: getSubst matched before after (d :: rest)
      else c :: getSubst matched before after (d :: rest)

/-- Core loop of global literal-pattern replacement with GetSubstitution.
`orig` is the whole subject string (needed for the before/after parts of a
substitution), `pos` the current position in it, `fuel` a structural bound
that is at least the length of the remaining text. -/
def replGlobalAux (p : Char) (ps repl orig : List Char) :
    Nat → List Char → Nat → List Char
  | 0, rest, _ => rest
  | _ + 1, [], _ => []
  | fuel + 1, c :: cs, pos =>
      if listStartsWith (p :: ps) (c :: cs) then
        getSubst (p :: ps) (orig.take pos) (orig.drop (pos + (ps.length + 1))) repl
          ++ replGlobalAux p ps repl orig fuel ((c :: cs).drop (ps.length + 1))
              (pos + (ps.length + 1))
      else c :: replGlobalAux p ps repl orig fuel cs (pos + 1)

/-- JavaScript `s.replace(new RegExp(pat, 'g'), repl)` for a pattern that is a
nonempty literal (no regex metacharacters) and a string replacement. -/
def jsReplaceGlobal (s pat repl : String) : String :=
  match pat.toList with
  | [] => s
  | p :: ps => String.mk (replGlobalAux p ps repl.toList s.toList s.toList.length s.toList 0)

/-- The translation function `__` of useTranslations.ts lines 56-85: split the
key on dots, walk the table, return the key when the final value is not a
string, otherwise fold the replacement entries (in iteration order) through a
global replace of the pattern colon-name.  Replacement values are modelled
after JavaScript `String(v)` conversion. -/
def jsTranslate (translations : List (String × JsValue)) (key : String)
    (replacements : Option (List (String × String))) : String :=
  match walkKeys (.vObj translations) (jsSplitDot key) with
  | .vStr s =>
      match replacements with
      | some rs => rs.foldl (fun str kv => jsReplaceGlobal str (String.mk (':' :: kv.1.toList)) kv.2) s
      | none => s
  | _ => key

/-- Specification-side path lookup: follows the dot segments through nested
objects and succeeds exactly when the walk ends at a string leaf. -/
def pathLookup : JsValue → List String → Option String
  | .vStr s, [] => some s
  | _, [] => none
  | .vObj fs, k :: rest => pathLookup (jsIndex fs k) rest
  | _, _ :: _ => none

/-- Specification-side verbatim replacement loop: like `replGlobalAux` but the
replacement text is inserted unchanged. -/
def verbatimAux (p : Char) (ps repl : List Char) : Nat → List Char → List Char
  | 0, rest => rest
  | _ + 1, [] => []
  | fuel + 1, c :: cs =>
      if listStartsWith (p :: ps) (c :: cs) then
        repl ++ verbatimAux p ps repl fuel ((c :: cs).drop (ps.length + 1))
      else c :: verbatimAux p ps repl fuel cs

/-- Specification-side: replace every occurrence of the literal pattern by the
replacement inserted verbatim (the behaviour the spec asserts). -/
def verbatimReplaceAll (s pat repl : String) : String :=
  match pat.toList with
  | [] => s
  | p :: ps => String.mk (verbatimAux p ps repl.toList s.toList.length s.toList)

/-- Specification-side: apply all placeholder replacements verbatim, in
iteration order. -/
def verbatimSubstitute (rs : List (String × String)) (s : String) : String :=
  rs.foldl (fun str kv => verbatimReplaceAll str (String.mk (':' :: kv.1.toList)) kv.2) s

/-- Characters that stand for themselves in a regular expression.  A
placeholder name made only of such characters makes
`new RegExp(':' + name, 'g')` match exactly the literal text colon-name,
which is the case `jsReplaceGlobal` embeds; names containing regex
metacharacters match differently (or make the RegExp constructor throw) and
are outside the model. -/
def regexLiteralChar (c : Char) : Bool := c.isAlphanum || c = '_'

example : jsSplitDot "messages.hello" = ["messages", "hello"] := by rfl

example :
    jsTranslate [("messages", .vObj [("hello", .vStr "Hello :name")])]
      "messages.hello" (some [("name", "World")]) = "Hello World" := by rfl

example :
    jsTranslate [("messages", .vObj [("hello", .vStr "Hello :name")])]
      "messages.hello" (some [("name", "$&")]) = "Hello :name" := by rfl

example :
    jsTranslate [("messages", .vObj [("hello", .vStr "Hello :name")])]
      "missing.key" none = "missing.key" := by rfl

/-- Lookup in a concrete association-list object (first matching key). -/
def tableGet : Table → String → Option JsValue
  | [], _ => none
  | (k, v) :: rest, g => if k = g then some v else tableGet rest g

/-- JavaScript `Set.add`: append the element unless already present. -/
def setAdd (l : List String) (g : String) : List String :=
  if g ∈ l then l else l ++ [g]

/-- `xs.forEach(g => set.add(g))`. -/
def addAll (l xs : List String) : List String := xs.foldl setAdd l

/-- JavaScript `Set.delete`. -/
def setDelete (l : List String) (g : String) : List String := l.filter (fun x => x ≠ g)

/-- `xs.forEach(g => set.delete(g))`. -/
def removeAll (l xs : List String) : List String := xs.foldl setDelete l

/-- `new Set(xs)` as a duplicate-free list keeping first occurrences. -/
def jsSetOf (xs : List String) : List String := addAll [] xs

/-- A lookup map `String → Option α` standing for a JavaScript `Map` whose
only observed operations are get, set, delete and clear. -/
def mapSet {α : Type} (m : String → Option α) (k : String) (v : α) : String → Option α :=
  fun g => if g = k then some v else m g

/-- JavaScript `Map.delete`. -/
def mapDelete {α : Type} (m : String → Option α) (k : String) : String → Option α :=
  fun g => if g = k then none else m g

/-- `xs.forEach(g => map.set(g, v))`. -/
def setAll {α : Type} (m : String → Option α) (xs : List String) (v : α) : String → Option α :=
  xs.foldl (fun acc g => mapSet acc g v) m

/-- `xs.forEach(g => map.delete(g))`. -/
def deleteAll {α : Type} (m : String → Option α) (xs : List String) : String → Option α :=
  xs.foldl (fun acc g => mapDelete acc g) m

/-- The provider state tracked by `LinguaProvider`: the merged translation
table (observed through lookup), the `loadedGroups` and `loadingGroups` sets,
and the `pendingRequestsRef` map from group name to the identifier of the
fetch operation registered for it. -/
structure Store where
  table : String → Option JsValue
  loaded : List String
  loading : List String
  pending : String → Option Nat

/-- One batched fetch operation: the `newGroupsToLoad` array captured by the
fetch promise, and its settlement status (`none` while in flight, `some true`
once resolved, `some false` once rejected). -/
structure Op where
  fresh : List String
  settled : Option Bool

/-- The whole modelled system: the store, the list of fetch operations created
so far (an operation's identifier is its index), the provider's initial
translations and explicit `initialLoadedGroups` prop, and the locale tracked
by `previousLocaleRef`. -/
structure Sys where
  store : Store
  ops : List Op
  initTable : Table
  initLoadedArg : Option (List String)
  prevLocale : String

/-- Result of the synchronous part of one `loadGroups` call: the updated
system, the operation identifiers awaited by the call's `Promise.all`, and
the batched fetch issued by the call, if any, as (identifier, group list). -/
structure StepOut where
  sys : Sys
  waits : List Nat
  issued : Option (Nat × List String)

/-- `isBrowser()` (lazyLoading.ts lines 296-298): both `window` and `document`
must be defined. -/
def isBrowserEnv (hasWindow hasDocument : Bool) : Bool := hasWindow && hasDocument

/-- The `groupsToLoad` local of `loadGroups` (lazyLoading.ts lines 422-424):
`names` filtered against the observed loaded and loading sets.  Duplicates in
`names` survive the filter. -/
def toConsider (obsLoaded obsLoading names : List String) : List String :=
  names.filter (fun g => decide (¬ g ∈ obsLoaded ∧ ¬ g ∈ obsLoading))

/-- The `newGroupsToLoad` local (lazyLoading.ts lines 430-441): the part of
`groupsToLoad` with no entry in the pending map. -/
def freshOf (s : Sys) (l : List String) : List String :=
  l.filter (fun g => (s.store.pending g).isNone)

/-- The `existingPromises` local (lazyLoading.ts lines 430-441): the pending
operations registered for the remaining part of `groupsToLoad`. -/
def joinedOf (s : Sys) (l : List String) : List Nat :=
  l.filterMap (fun g => s.store.pending g)

/-- The synchronous prefix of `loadGroups` (lazyLoading.ts lines 415-495), up
to (and including) issuing the batched fetch and registering it in the pending
map.  `obsLoaded` and `obsLoading` are the `loadedGroups`/`loadingGroups`
values the call's closure observes; the pending map is read from the current
state because it is a ref.  The steps: return immediately outside a browser;
filter `names` against the observed sets; return when nothing is left;
partition the remainder by the pending map into operations to join and fresh
names; when no fresh name remains await the joined operations; otherwise mark
the fresh names loading, create one fetch operation for them, register it in
pending under each fresh name, and await the joined operations plus the new
one. -/
def loadGroupsStep (isBr : Bool) (obsLoaded obsLoading : List String)
    (names : List String) (s : Sys) : StepOut :=
  if !isBr then ⟨s, [], none⟩
  else
    let groupsToLoad := toConsider obsLoaded obsLoading names
    if groupsToLoad.isEmpty then ⟨s, [], none⟩
    else
      let newGroupsToLoad := freshOf s groupsToLoad
      let existingPromises := joinedOf s groupsToLoad
      if newGroupsToLoad.isEmpty then ⟨s, existingPromises, none⟩
      else
        let opId := s.ops.length
        ⟨{ s with
            store :=
              { s.store with
                loading := addAll s.store.loading newGroupsToLoad,
                pending := setAll s.store.pending newGroupsToLoad opId },
            ops := s.ops ++ [⟨newGroupsToLoad, none⟩] },
          existingPromises ++ [opId], some (opId, newGroupsToLoad)⟩

/-- Settlement of operation `i` whose fetch resolved with per-group tables
`tr` (lazyLoading.ts lines 457-486, success path): spread-merge `tr` over the
table, add the operation's fresh names to `loadedGroups`, then the `finally`
block removes them from `loadingGroups` and deletes them from the pending
map. -/
def settleSuccess (s : Sys) (i : Nat) (tr : Table) : Sys :=
  match s.ops.get? i with
  | none => s
  | some op =>
      { s with
        store :=
          { table := fun g => match tableGet tr g with | some v => some v | none => s.store.table g,
            loaded := addAll s.store.loaded op.fresh,
            loading := removeAll s.store.loading op.fresh,
            pending := deleteAll s.store.pending op.fresh },
        ops := s.ops.set i ⟨op.fresh, some true⟩ }

/-- Settlement of operation `i` whose fetch rejected (lazyLoading.ts lines
457-486, failure path): only the `finally` block runs — the fresh names are
removed from `loadingGroups` and the pending map; the table and
`loadedGroups` are untouched and the error propagates to every awaiting
caller. -/
def settleFailure (s : Sys) (i : Nat) : Sys :=
  match s.ops.get? i with
  | none => s
  | some op =>
      { s with
        store :=
          { s.store with
            loading := removeAll s.store.loading op.fresh,
            pending := deleteAll s.store.pending op.fresh },
        ops := s.ops.set i ⟨op.fresh, some false⟩ }

/-- The group names of the initial snapshot: the explicit
`initialLoadedGroups` prop when given, otherwise
`extractGroupNames(initialTranslations)` (`Object.keys`); either way collected
into a `Set`. -/
def initialLoadedSet (initTable : Table) : Option (List String) → List String
  | some l => jsSetOf l
  | none => jsSetOf (initTable.map Prod.fst)

/-- The locale-change reset effect (lazyLoading.ts lines 383-402): when the
observed locale differs from `previousLocaleRef`, record the new locale, reset
the table to the initial translations, reset `loadedGroups` to the initial
group set, clear `loadingGroups` and clear the pending map.  In-flight
operations are not touched. -/
def localeEffect (s : Sys) (currentLocale : String) : Sys :=
  if s.prevLocale = currentLocale then s
  else
    { s with
      prevLocale := currentLocale,
      store :=
        { table := fun g => tableGet s.initTable g,
          loaded := initialLoadedSet s.initTable s.initLoadedArg,
          loading := [],
          pending := fun _ => none } }

/-- The provider's state at initialization (lazyLoading.ts lines 348-374):
table from the Inertia props, `loadedGroups` from `initialLoadedGroups` or the
keys of the initial translations, empty `loadingGroups`, empty pending map. -/
def sysInit (initTable : Table) (initLoadedArg : Option (List String)) (locale : String) : Sys :=
  { store :=
      { table := fun g => tableGet initTable g,
        loaded := initialLoadedSet initTable initLoadedArg,
        loading := [],
        pending := fun _ => none },
    ops := [],
    initTable := initTable,
    initLoadedArg := initLoadedArg,
    prevLocale := locale }

/-- Operation `i` exists and has resolved. -/
def opResolvedB (s : Sys) (i : Nat) : Bool :=
  match s.ops.get? i with
  | some op => op.settled == some true
  | none => false

/-- Operation `i` exists and has rejected. -/
def opRejectedB (s : Sys) (i : Nat) : Bool :=
  match s.ops.get? i with
  | some op => op.settled == some false
  | none => false

/-- Operation `i` exists and has settled either way. -/
def opSettledB (s : Sys) (i : Nat) : Bool :=
  match s.ops.get? i with
  | some op => op.settled != none
  | none => false

/-- `Promise.all(waits)` has resolved: every awaited operation resolved. -/
def callResolvedB (s : Sys) (waits : List Nat) : Bool := waits.all (opResolvedB s)

/-- `Promise.all(waits)` has rejected: some awaited operation rejected. -/
def callRejectedB (s : Sys) (waits : List Nat) : Bool := waits.any (opRejectedB s)

/-- States reachable from provider initialization by store operations, with
every `loadGroups` call observing the then-current `loadedGroups` and
`loadingGroups` (the single-threaded scheduling model of the store: each
synchronous segment runs against the latest state). -/
inductive Reachable : Sys → Prop where
  | init (t : Table) (arg : Option (List String)) (loc : String) : Reachable (sysInit t arg loc)
  | load {s : Sys} (names : List String) : Reachable s →
      Reachable (loadGroupsStep true s.store.loaded s.store.loading names s).sys
  | ok {s : Sys} (i : Nat) (tr : Table) : Reachable s → Reachable (settleSuccess s i tr)
  | err {s : Sys} (i : Nat) : Reachable s → Reachable (settleFailure s i)
  | chg {s : Sys} (loc : String) : Reachable s → Reachable (localeEffect s loc)

/-- States reachable when a `loadGroups` call may observe the `loadedGroups`
and `loadingGroups` values of any earlier render — the stale-closure
executions React permits, since the call closes over render-time state while
only the pending map is a ref and therefore always current.  The observed
sets are free parameters of the `load` step. -/
inductive ReachableObs : Sys → Prop where
  | init (t : Table) (arg : Option (List String)) (loc : String) : ReachableObs (sysInit t arg loc)
  | load {s : Sys} (obsLoaded obsLoading names : List String) : ReachableObs s →
      ReachableObs (loadGroupsStep true obsLoaded obsLoading names s).sys
  | ok {s : Sys} (i : Nat) (tr : Table) : ReachableObs s → ReachableObs (settleSuccess s i tr)
  | err {s : Sys} (i : Nat) : ReachableObs s → ReachableObs (settleFailure s i)
  | chg {s : Sys} (loc : String) : ReachableObs s → ReachableObs (localeEffect s loc)

theorem mem_setAdd {a g : String} {l : List String} : a ∈ setAdd l g ↔ a ∈ l ∨ a = g := by
  simp only [setAdd]
  split
  · constructor
    · exact Or.inl
    · rintro (h | rfl)
      · exact h
      · assumption
  · simp

theorem mem_addAll {a : String} (xs : List String) :
    ∀ l, a ∈ addAll l xs ↔ a ∈ l ∨ a ∈ xs := by
  induction xs with
  | nil => intro l; simp [addAll]
  | cons x xs ih =>
      intro l
      have h : addAll l (x :: xs) = addAll (setAdd l x) xs := rfl
      rw [h, ih, mem_setAdd]
      simp
      tauto

theorem mem_setDelete {a g : String} {l : List String} :
    a ∈ setDelete l g ↔ a ∈ l ∧ a ≠ g := by
  simp [setDelete]

theorem mem_removeAll {a : String} (xs : List String) :
    ∀ l, a ∈ removeAll l xs ↔ a ∈ l ∧ ¬ a ∈ xs := by
  induction xs with
  | nil => intro l; simp [removeAll]
  | cons x xs ih =>
      intro l
      have h : removeAll l (x :: xs) = removeAll (setDelete l x) xs := rfl
      rw [h, ih, mem_setDelete]
      simp only [List.mem_cons]
      tauto

theorem mem_jsSetOf {a : String} {xs : List String} : a ∈ jsSetOf xs ↔ a ∈ xs := by
  simp [jsSetOf, mem_addAll]

theorem get_setAll {α : Type} (v : α) (xs : List String) :
    ∀ (m : String → Option α) (g : String),
      setAll m xs v g = if g ∈ xs then some v else m g := by
  induction xs with
  | nil => intro m g; simp [setAll]
  | cons x xs ih =>
      intro m g
      have h : setAll m (x :: xs) v = setAll (mapSet m x v) xs v := rfl
      rw [h, ih]
      by_cases hx : g ∈ xs
      · simp [hx]
      · by_cases hgx : g = x
        · simp [hx, hgx, mapSet]
        · simp [hx, hgx, mapSet]

theorem get_deleteAll {α : Type} (xs : List String) :
    ∀ (m : String → Option α) (g : String),
      deleteAll m xs g = if g ∈ xs then none else m g := by
  induction xs with
  | nil => intro m g; simp [deleteAll]
  | cons x xs ih =>
      intro m g
      have h : deleteAll m (x :: xs) = deleteAll (mapDelete m x) xs := rfl
      rw [h, ih]
      by_cases hx : g ∈ xs
      · simp [hx]
      · by_cases hgx : g = x
        · simp [hx, hgx, mapDelete]
        · simp [hx, hgx, mapDelete]

theorem pathLookup_walkKeys (ks : List String) :
    ∀ v, pathLookup v ks =
      match walkKeys v ks with
      | .vStr s => some s
      | _ => none := by
  induction ks with
  | nil => intro v; cases v <;> rfl
  | cons k rest ih => intro v; cases v <;> simp [pathLookup, walkKeys, ih]

theorem getSubst_noDollar (m b a : List Char) :
    ∀ tpl, ¬ '$' ∈ tpl → getSubst m b a tpl = tpl := by
  have H : ∀ n tpl, tpl.length ≤ n → ¬ '$' ∈ tpl → getSubst m b a tpl = tpl := by
    intro n
    induction n with
    | zero =>
        intro tpl hlen _
        rw [List.eq_nil_of_length_eq_zero (Nat.le_zero.mp hlen)]
        rfl
    | succ n ih =>
        intro tpl hlen hd
        match tpl with
        | [] => rfl
        | [c] => rfl
        | c :: d :: rest =>
            have hc : ¬ c = '$' := fun e => hd (by simp [e])
            simp only [getSubst, if_neg hc]
            have : getSubst m b a (d :: rest) = d :: rest := by
              refine ih (d :: rest) ?_ (fun hm => hd (by simp [hm]))
              simp at hlen ⊢
              omega
            rw [this]
  intro tpl
  exact H tpl.length tpl le_rfl

theorem replGlobalAux_eq_verbatim (p : Char) (ps repl orig : List Char)
    (h : ¬ '$' ∈ repl) :
    ∀ fuel s pos, replGlobalAux p ps repl orig fuel s pos = verbatimAux p ps repl fuel s := by
  intro fuel
  induction fuel with
  | zero => intro s pos; rfl
  | succ fuel ih =>
      intro s pos
      match s with
      | [] => rfl
      | c :: cs =>
          simp only [replGlobalAux, verbatimAux]
          split
          · rw [getSubst_noDollar _ _ _ repl h, ih]
          · rw [ih]

theorem jsReplaceGlobal_eq_verbatim (s pat repl : String) (h : ¬ '$' ∈ repl.toList) :
    jsReplaceGlobal s pat repl = verbatimReplaceAll s pat repl := by
  simp only [jsReplaceGlobal, verbatimReplaceAll]
  cases hp : pat.toList with
  | nil => rfl
  | cons p ps =>
      show String.mk (replGlobalAux p ps repl.toList s.toList s.toList.length s.toList 0) =
        String.mk (verbatimAux p ps repl.toList s.toList.length s.toList)
      rw [replGlobalAux_eq_verbatim p ps _ _ h]

theorem foldl_replace_eq_verbatim (rs : List (String × String))
    (h : ∀ kv ∈ rs, ¬ '$' ∈ kv.2.toList) :
    ∀ s, rs.foldl (fun str kv => jsReplaceGlobal str (String.mk (':' :: kv.1.toList)) kv.2) s =
      verbatimSubstitute rs s := by
  induction rs with
  | nil => intro s; rfl
  | cons kv rs ih =>
      intro s
      simp only [verbatimSubstitute, List.foldl_cons]
      rw [jsReplaceGlobal_eq_verbatim _ _ _ (h kv (by simp))]
      have := ih (fun x hx => h x (by simp [hx]))
        (verbatimReplaceAll s (String.mk (':' :: kv.1.toList)) kv.2)
      simpa [verbatimSubstitute] using this

/-- C8: resolution refines path lookup: the resolver returns the string leaf
reached by walking the dot-separated segments, and the key itself whenever the
walk misses (absent segment, non-indexable value, or non-string final
value). -/
theorem claim_C8 (tbl : Table) (key : String) :
    jsTranslate tbl key none = (pathLookup (.vObj tbl) (jsSplitDot key)).getD key := by
  simp only [jsTranslate, pathLookup_walkKeys]
  cases walkKeys (.vObj tbl) (jsSplitDot key) <;> rfl

/-- C9 counterexample: with the replacement value regex-special string
dollar-ampersand, the code substitutes the matched text (yielding
"Hello :name"), not the replacement value verbatim (which would yield
"Hello $&"); replacement values are therefore not inserted free of further
interpretation. -/
theorem claim_C9_counterexample :
    jsTranslate [("messages", .vObj [("hello", .vStr "Hello :name")])] "messages.hello"
        (some [("name", "$&")]) = "Hello :name" ∧
      verbatimSubstitute [("name", "$&")] "Hello :name" = "Hello $&" ∧
      ("Hello :name" : String) ≠ "Hello $&" :=
  ⟨rfl, rfl, by decide⟩

/-- C9 amended: when resolution succeeds and every placeholder name consists
of regex-literal characters (so the constructed RegExp matches the literal
text colon-name), each replacement entry, in iteration order, replaces every
occurrence of colon-name; replacement values that contain no dollar character
are inserted verbatim (values containing dollars undergo JavaScript
dollar-pattern substitution instead). -/
theorem claim_C9_amended (tbl : Table) (key : String) (rs : List (String × String))
    (hk : ∀ kv ∈ rs, kv.1.toList.all regexLiteralChar = true)
    (h : ∀ kv ∈ rs, ¬ '$' ∈ kv.2.toList) :
    jsTranslate tbl key (some rs) =
      Option.elim (pathLookup (.vObj tbl) (jsSplitDot key)) key (verbatimSubstitute rs) := by
  simp only [jsTranslate, pathLookup_walkKeys]
  cases walkKeys (.vObj tbl) (jsSplitDot key) with
  | vStr s => exact foldl_replace_eq_verbatim rs h s
  | vNum n => rfl
  | vBool b => rfl
  | vNull => rfl
  | vUndefined => rfl
  | vObj fs => rfl

/-- C9 witness: the spec's own example, with a dollar-free replacement value:
resolving "messages.hello" with name bound to "World" yields "Hello World". -/
theorem claim_C9_witness :
    (∀ kv ∈ [("name", "World")], kv.1.toList.all regexLiteralChar = true) ∧
      (∀ kv ∈ [("name", "World")], ¬ '$' ∈ kv.2.toList) ∧
      jsTranslate [("messages", .vObj [("hello", .vStr "Hello :name")])] "messages.hello"
          (some [("name", "World")]) =
        Option.elim
          (pathLookup (.vObj [("messages", .vObj [("hello", .vStr "Hello :name")])])
            (jsSplitDot "messages.hello"))
          "messages.hello" (verbatimSubstitute [("name", "World")]) ∧
      verbatimSubstitute [("name", "World")] "Hello :name" = "Hello World" :=
  ⟨by decide, by decide, claim_C9_amended _ _ _ (by decide) (by decide), rfl⟩

theorem mem_toConsider {g : String} {obsLoaded obsLoading names : List String} :
    g ∈ toConsider obsLoaded obsLoading names ↔
      g ∈ names ∧ ¬ g ∈ obsLoaded ∧ ¬ g ∈ obsLoading := by
  simp [toConsider, List.mem_filter]

theorem mem_freshOf {g : String} {s : Sys} {l : List String} :
    g ∈ freshOf s l ↔ g ∈ l ∧ s.store.pending g = none := by
  simp [freshOf, List.mem_filter, Option.isNone_iff_eq_none]

theorem mem_joinedOf {i : Nat} {s : Sys} {l : List String} :
    i ∈ joinedOf s l ↔ ∃ g ∈ l, s.store.pending g = some i := by
  simp [joinedOf, List.mem_filterMap]

/-- Unfolding of the browser-path `loadGroups` prefix in terms of the named
locals. -/
theorem loadGroupsStep_eq (obsLoaded obsLoading names : List String) (s : Sys) :
    loadGroupsStep true obsLoaded obsLoading names s =
      if (toConsider obsLoaded obsLoading names).isEmpty then ⟨s, [], none⟩
      else if (freshOf s (toConsider obsLoaded obsLoading names)).isEmpty then
        ⟨s, joinedOf s (toConsider obsLoaded obsLoading names), none⟩
      else
        ⟨{ s with
            store :=
              { s.store with
                loading := addAll s.store.loading (freshOf s (toConsider obsLoaded obsLoading names)),
                pending := setAll s.store.pending (freshOf s (toConsider obsLoaded obsLoading names))
                  s.ops.length },
            ops := s.ops ++ [⟨freshOf s (toConsider obsLoaded obsLoading names), none⟩] },
          joinedOf s (toConsider obsLoaded obsLoading names) ++ [s.ops.length],
          some (s.ops.length, freshOf s (toConsider obsLoaded obsLoading names))⟩ := rfl

/-- C10: outside a browser environment (`window` or `document` undefined),
`loadGroups` returns immediately with nothing awaited — `Promise.all` of an
empty list is already resolved — no fetch is issued and the whole state
(table, loaded, loading, pending) is unchanged. -/
theorem claim_C10 (hasWindow hasDocument : Bool)
    (h : hasWindow = false ∨ hasDocument = false)
    (obsLoaded obsLoading names : List String) (s : Sys) :
    loadGroupsStep (isBrowserEnv hasWindow hasDocument) obsLoaded obsLoading names s
        = ⟨s, [], none⟩ ∧
      callResolvedB s [] = true := by
  have hb : isBrowserEnv hasWindow hasDocument = false := by
    rcases h with h | h <;> simp [isBrowserEnv, h]
  rw [hb]
  exact ⟨rfl, rfl⟩

/-- C10 witness: with `window` absent, loading a group changes nothing and
awaits nothing. -/
theorem claim_C10_witness :
    (false = false ∨ true = false) ∧
      loadGroupsStep (isBrowserEnv false true) [] [] ["a"] (sysInit [] none "en")
          = ⟨sysInit [] none "en", [], none⟩ ∧
      callResolvedB (sysInit [] none "en") [] = true :=
  ⟨Or.inl rfl, claim_C10 false true (Or.inl rfl) [] [] ["a"] (sysInit [] none "en")⟩

/-- C4: when the observed active locale differs from the stored previous
locale, the effect synchronously resets the table to exactly the initial
snapshot's table, resets loaded to the initial snapshot's group set (the
explicitly supplied initial group list when present, else the initial table's
keys), clears loading, and empties the pending map. -/
theorem claim_C4 (s : Sys) (loc : String) (h : ¬ s.prevLocale = loc) :
    (localeEffect s loc).store.table = (fun g => tableGet s.initTable g) ∧
      (localeEffect s loc).store.loaded = initialLoadedSet s.initTable s.initLoadedArg ∧
      (∀ g, g ∈ (localeEffect s loc).store.loaded ↔
        g ∈ (match s.initLoadedArg with
             | some l => l
             | none => s.initTable.map Prod.fst)) ∧
      (localeEffect s loc).store.loading = [] ∧
      (localeEffect s loc).store.pending = (fun _ => none) ∧
      (localeEffect s loc).prevLocale = loc := by
  have he : localeEffect s loc =
      { s with
        prevLocale := loc,
        store :=
          { table := fun g => tableGet s.initTable g,
            loaded := initialLoadedSet s.initTable s.initLoadedArg,
            loading := [],
            pending := fun _ => none } } := by
    simp only [localeEffect, if_neg h]
  rw [he]
  refine ⟨rfl, rfl, ?_, rfl, rfl, rfl⟩
  intro g
  cases s.initLoadedArg <;> simp [initialLoadedSet, mem_jsSetOf]

/-- C4 witness: a provider initialized with locale "en", one initial group
"a", and a lazily loaded group "b"; switching to "fr" discards "b" and
restores the initial snapshot. -/
theorem claim_C4_witness :
    (¬ (sysInit [("a", JsValue.vObj [])] none "en").prevLocale = "fr") ∧
      (localeEffect (sysInit [("a", JsValue.vObj [])] none "en") "fr").store.loading = [] ∧
      (localeEffect (sysInit [("a", JsValue.vObj [])] none "en") "fr").store.pending
        = (fun _ => none) ∧
      ("a" ∈ (localeEffect (sysInit [("a", JsValue.vObj [])] none "en") "fr").store.loaded ↔
        "a" ∈ ([("a", JsValue.vObj [])] : Table).map Prod.fst) := by
  have h : ¬ (sysInit [("a", JsValue.vObj [])] none "en").prevLocale = "fr" := by decide
  have hc := claim_C4 (sysInit [("a", JsValue.vObj [])] none "en") "fr" h
  exact ⟨h, hc.2.2.2.1, hc.2.2.2.2.1, hc.2.2.1 "a"⟩

/-- C7 amended: no group name is a member of both loadedGroups and
loadingGroups in any state reachable by store operations in which every
`loadGroups` call observes the then-current loaded and loading sets (fresh
closures): a name then enters loading only while not loaded, and settlement
adds it to loaded and removes it from loading in one synchronous step.  A
call observing stale sets can break the invariant — see the
counterexample. -/
theorem claim_C7 (s : Sys) (h : Reachable s) :
    ∀ g, ¬ (g ∈ s.store.loaded ∧ g ∈ s.store.loading) := by
  induction h with
  | init t arg loc =>
      intro g hg
      exact absurd hg.2 (List.not_mem_nil g)
  | @load t names hr ih =>
      intro g hg
      rw [loadGroupsStep_eq] at hg
      by_cases h1 : (toConsider t.store.loaded t.store.loading names).isEmpty
      · rw [if_pos h1] at hg
        exact ih g hg
      · rw [if_neg h1] at hg
        by_cases h2 : (freshOf t (toConsider t.store.loaded t.store.loading names)).isEmpty
        · rw [if_pos h2] at hg
          exact ih g hg
        · rw [if_neg h2] at hg
          rcases (mem_addAll _ _).mp hg.2 with hld | hfr
          · exact ih g ⟨hg.1, hld⟩
          · exact (mem_toConsider.mp (mem_freshOf.mp hfr).1).2.1 hg.1
  | @ok t i tr hr ih =>
      intro g hg
      cases hop : t.ops.get? i with
      | none => simp only [settleSuccess, hop] at hg; exact ih g hg
      | some op =>
          simp only [settleSuccess, hop] at hg
          have h2 := (mem_removeAll _ _).mp hg.2
          rcases (mem_addAll _ _).mp hg.1 with hl | hf
          · exact ih g ⟨hl, h2.1⟩
          · exact h2.2 hf
  | @err t i hr ih =>
      intro g hg
      cases hop : t.ops.get? i with
      | none => simp only [settleFailure, hop] at hg; exact ih g hg
      | some op =>
          simp only [settleFailure, hop] at hg
          exact ih g ⟨hg.1, ((mem_removeAll _ _).mp hg.2).1⟩
  | @chg t loc hr ih =>
      intro g hg
      by_cases hc : t.prevLocale = loc
      · simp only [localeEffect, if_pos hc] at hg
        exact ih g hg
      · simp only [localeEffect, if_neg hc] at hg
        exact absurd hg.2 (List.not_mem_nil g)

/-- Demonstration scenario: a provider started with an empty initial table. -/
def demoStart : Sys := sysInit [] none "en"

/-- Demonstration scenario: one `loadGroups` call for group "b" observing the
current (initial) state; it issues operation 0 fetching ["b"]. -/
def demoLoadB : StepOut :=
  loadGroupsStep true demoStart.store.loaded demoStart.store.loading ["b"] demoStart

/-- Demonstration fetch response carrying a table for group "b". -/
def demoTable : Table := [("b", JsValue.vObj [("k", JsValue.vStr "v")])]

/-- C7 witness: the state after loading "b" and settling its fetch is
reachable, and there "b" is not in both sets at once. -/
theorem claim_C7_witness :
    Reachable (settleSuccess demoLoadB.sys 0 demoTable) ∧
      ¬ ("b" ∈ (settleSuccess demoLoadB.sys 0 demoTable).store.loaded ∧
          "b" ∈ (settleSuccess demoLoadB.sys 0 demoTable).store.loading) := by
  have hr : Reachable (settleSuccess demoLoadB.sys 0 demoTable) :=
    Reachable.ok 0 demoTable (Reachable.load ["b"] (Reachable.init [] none "en"))
  exact ⟨hr, claim_C7 _ hr "b"⟩

/-- Execution with a stale observation: group "a" is loaded and its fetch
settles successfully; then a call created before that settlement (its closure
still observes empty loaded/loading sets) requests "a" again.  The pending
entry for "a" was deleted at settlement, so the call re-fetches "a". -/
def staleTrace : Sys :=
  (loadGroupsStep true [] [] ["a"]
    (settleSuccess (loadGroupsStep true [] [] ["a"] (sysInit [] none "en")).sys 0
      [("a", JsValue.vObj [])])).sys

/-- C7 counterexample: the stale-observation execution is reachable under the
closure semantics the code permits, and it reaches a state where "a" is a
member of both loadedGroups and loadingGroups at once, refuting the claim
that the two sets are disjoint in every state reachable by any sequence of
store operations. -/
theorem claim_C7_counterexample :
    ReachableObs staleTrace ∧
      "a" ∈ staleTrace.store.loaded ∧ "a" ∈ staleTrace.store.loading := by
  refine ⟨?_, by decide, by decide⟩
  exact ReachableObs.load [] [] ["a"]
    (ReachableObs.ok 0 [("a", JsValue.vObj [])]
      (ReachableObs.load [] [] ["a"] (ReachableObs.init [] none "en")))

/-- C1 counterexample: while the fetch for "b" is registered in the pending
map (operation 0, unsettled), a second `loadGroups(["b"])` call that observes
the current state filters "b" out through the loading set, awaits nothing —
its promise is already resolved, hence settles before the single fetch for
"b" settles — and joins no pending operation, contradicting the claim that
any overlapping call joins the existing operation and settles only after the
fetch settles. -/
theorem claim_C1_counterexample :
    demoLoadB.sys.store.pending "b" = some 0 ∧
      opSettledB demoLoadB.sys 0 = false ∧
      (loadGroupsStep true demoLoadB.sys.store.loaded demoLoadB.sys.store.loading ["b"]
          demoLoadB.sys).waits = [] ∧
      (loadGroupsStep true demoLoadB.sys.store.loaded demoLoadB.sys.store.loading ["b"]
          demoLoadB.sys).issued = none ∧
      callResolvedB demoLoadB.sys [] = true :=
  ⟨rfl, rfl, rfl, rfl, rfl⟩

/-- C1 amended: when the second overlapping call additionally observes g as
neither loaded nor loading (as for calls issued from the same render as the
first, before its loading update is visible), it issues no new fetch
containing g, joins the registered pending operation, and its promise cannot
resolve before that operation resolves (it may still reject earlier if a
different awaited fetch fails first). -/
theorem claim_C1_amended (s : Sys) (obsLoaded obsLoading names : List String)
    (g : String) (i : Nat) (hg : g ∈ names) (hl : ¬ g ∈ obsLoaded)
    (hld : ¬ g ∈ obsLoading) (hp : s.store.pending g = some i) :
    (∀ j batch,
        (loadGroupsStep true obsLoaded obsLoading names s).issued = some (j, batch) →
          ¬ g ∈ batch) ∧
      i ∈ (loadGroupsStep true obsLoaded obsLoading names s).waits ∧
      (∀ t : Sys,
        callResolvedB t (loadGroupsStep true obsLoaded obsLoading names s).waits = true →
          opResolvedB t i = true) := by
  have hgt : g ∈ toConsider obsLoaded obsLoading names := mem_toConsider.mpr ⟨hg, hl, hld⟩
  have h1 : ¬ (toConsider obsLoaded obsLoading names).isEmpty = true := by
    intro hE
    rw [List.isEmpty_iff.mp hE] at hgt
    exact absurd hgt (List.not_mem_nil g)
  have hjoin : i ∈ joinedOf s (toConsider obsLoaded obsLoading names) :=
    mem_joinedOf.mpr ⟨g, hgt, hp⟩
  have hnb : ¬ g ∈ freshOf s (toConsider obsLoaded obsLoading names) := by
    intro hmem
    have hn := (mem_freshOf.mp hmem).2
    rw [hp] at hn
    exact Option.noConfusion hn
  rw [loadGroupsStep_eq, if_neg h1]
  by_cases h2 : (freshOf s (toConsider obsLoaded obsLoading names)).isEmpty
  · rw [if_pos h2]
    refine ⟨?_, hjoin, ?_⟩
    · intro j batch hb
      exact absurd hb (by simp)
    · intro t ht
      exact List.all_eq_true.mp ht i hjoin
  · rw [if_neg h2]
    refine ⟨?_, List.mem_append_left _ hjoin, ?_⟩
    · intro j batch hb
      injection hb with hpair
      injection hpair with hj hb2
      rw [← hb2]
      exact hnb
    · intro t ht
      exact List.all_eq_true.mp ht i (List.mem_append_left _ hjoin)

/-- C1 witness: a second call for ["b","c"] from the initial render's
observation joins operation 0 (the pending fetch of "b"), issues no fetch
containing "b", and cannot resolve before operation 0 resolves. -/
theorem claim_C1_witness :
    ("b" ∈ (["b", "c"] : List String) ∧ ¬ "b" ∈ ([] : List String) ∧
        ¬ "b" ∈ ([] : List String) ∧ demoLoadB.sys.store.pending "b" = some 0) ∧
      ((∀ j batch,
          (loadGroupsStep true [] [] ["b", "c"] demoLoadB.sys).issued = some (j, batch) →
            ¬ "b" ∈ batch) ∧
        0 ∈ (loadGroupsStep true [] [] ["b", "c"] demoLoadB.sys).waits ∧
        (∀ t : Sys,
          callResolvedB t (loadGroupsStep true [] [] ["b", "c"] demoLoadB.sys).waits = true →
            opResolvedB t 0 = true)) :=
  ⟨⟨by decide, by decide, by decide, rfl⟩,
    claim_C1_amended demoLoadB.sys [] [] ["b", "c"] "b" 0 (by decide) (by decide) (by decide) rfl⟩

/-- C2: after a successful settlement, every fresh name of the operation is in
loadedGroups, the table maps each group name present in the response to
exactly the response's per-group table (wholesale replacement regardless of
previous contents), and a subsequent `loadGroups` call consisting only of the
operation's names returns immediately: no fetch issued, nothing awaited, no
state change. -/
theorem claim_C2 (s : Sys) (i : Nat) (op : Op) (tr : Table)
    (hop : s.ops.get? i = some op) :
    (∀ g ∈ op.fresh, g ∈ (settleSuccess s i tr).store.loaded) ∧
      (∀ g v, tableGet tr g = some v → (settleSuccess s i tr).store.table g = some v) ∧
      (∀ names2, (∀ x ∈ names2, x ∈ op.fresh) →
        loadGroupsStep true (settleSuccess s i tr).store.loaded
            (settleSuccess s i tr).store.loading names2 (settleSuccess s i tr)
          = ⟨settleSuccess s i tr, [], none⟩) := by
  have hload : (settleSuccess s i tr).store.loaded = addAll s.store.loaded op.fresh := by
    simp only [settleSuccess, hop]
  have htab : (settleSuccess s i tr).store.table
      = fun g => match tableGet tr g with | some v => some v | none => s.store.table g := by
    simp only [settleSuccess, hop]
  refine ⟨?_, ?_, ?_⟩
  · intro g hgf
    rw [hload]
    exact (mem_addAll _ _).mpr (Or.inr hgf)
  · intro g v hv
    rw [htab]
    simp only [hv]
  · intro names2 hsub
    have hempty : toConsider (settleSuccess s i tr).store.loaded
        (settleSuccess s i tr).store.loading names2 = [] := by
      simp only [toConsider]
      rw [List.filter_eq_nil_iff]
      intro a ha
      have hal : a ∈ (settleSuccess s i tr).store.loaded := by
        rw [hload]
        exact (mem_addAll _ _).mpr (Or.inr (hsub a ha))
      simp [hal]
    rw [loadGroupsStep_eq, hempty]
    rfl

/-- C2 witness: after loading "b" successfully, "b" is loaded, its table is
exactly the fetched one, and re-requesting ["b"] changes nothing and fetches
nothing. -/
theorem claim_C2_witness :
    demoLoadB.sys.ops.get? 0 = some ⟨["b"], none⟩ ∧
      "b" ∈ (settleSuccess demoLoadB.sys 0 demoTable).store.loaded ∧
      (settleSuccess demoLoadB.sys 0 demoTable).store.table "b"
        = some (JsValue.vObj [("k", JsValue.vStr "v")]) ∧
      loadGroupsStep true (settleSuccess demoLoadB.sys 0 demoTable).store.loaded
          (settleSuccess demoLoadB.sys 0 demoTable).store.loading ["b"]
          (settleSuccess demoLoadB.sys 0 demoTable)
        = ⟨settleSuccess demoLoadB.sys 0 demoTable, [], none⟩ := by
  have hop : demoLoadB.sys.ops.get? 0 = some ⟨["b"], none⟩ := rfl
  have hc := claim_C2 demoLoadB.sys 0 ⟨["b"], none⟩ demoTable hop
  exact ⟨hop, hc.1 "b" (by decide), hc.2.1 "b" _ rfl, hc.2.2 ["b"] (by decide)⟩

/-- C3: after a failed settlement, every fresh name of the operation (not
loaded before) is absent from loadedGroups, loadingGroups and the pending
map; the operation is rejected, so every caller whose `Promise.all` includes
it — the triggering caller and all joined callers — rejects; and a subsequent
`loadGroups` for such a name issues a new batched fetch containing it. -/
theorem claim_C3 (s : Sys) (i : Nat) (op : Op)
    (hop : s.ops.get? i = some op)
    (hnl : ∀ g ∈ op.fresh, ¬ g ∈ s.store.loaded) :
    (∀ g ∈ op.fresh,
        ¬ g ∈ (settleFailure s i).store.loaded ∧
          ¬ g ∈ (settleFailure s i).store.loading ∧
          (settleFailure s i).store.pending g = none) ∧
      opRejectedB (settleFailure s i) i = true ∧
      (∀ waits, i ∈ waits → callRejectedB (settleFailure s i) waits = true) ∧
      (∀ g ∈ op.fresh,
        (loadGroupsStep true (settleFailure s i).store.loaded
            (settleFailure s i).store.loading [g] (settleFailure s i)).issued
          = some ((settleFailure s i).ops.length, [g])) := by
  have hload : (settleFailure s i).store.loaded = s.store.loaded := by
    simp only [settleFailure, hop]
  have hld : (settleFailure s i).store.loading = removeAll s.store.loading op.fresh := by
    simp only [settleFailure, hop]
  have hpend : (settleFailure s i).store.pending = deleteAll s.store.pending op.fresh := by
    simp only [settleFailure, hop]
  have hops : (settleFailure s i).ops = s.ops.set i ⟨op.fresh, some false⟩ := by
    simp only [settleFailure, hop]
  have habs : ∀ g ∈ op.fresh,
      ¬ g ∈ (settleFailure s i).store.loaded ∧
        ¬ g ∈ (settleFailure s i).store.loading ∧
        (settleFailure s i).store.pending g = none := by
    intro g hgf
    refine ⟨?_, ?_, ?_⟩
    · rw [hload]; exact hnl g hgf
    · rw [hld]
      intro hm
      exact ((mem_removeAll _ _).mp hm).2 hgf
    · rw [hpend, get_deleteAll, if_pos hgf]
  have hrej : opRejectedB (settleFailure s i) i = true := by
    have hgot : (settleFailure s i).ops.get? i = some ⟨op.fresh, some false⟩ := by
      rw [hops, List.get?_set_eq, hop]
      rfl
    unfold opRejectedB
    rw [hgot]
    rfl
  refine ⟨habs, hrej, ?_, ?_⟩
  · intro waits hiw
    exact List.any_eq_true.mpr ⟨i, hiw, hrej⟩
  · intro g hgf
    obtain ⟨hga, hgb, hgc⟩ := habs g hgf
    have h1 : toConsider (settleFailure s i).store.loaded
        (settleFailure s i).store.loading [g] = [g] := by
      simp [toConsider, hga, hgb]
    have h2 : freshOf (settleFailure s i) [g] = [g] := by
      simp [freshOf, hgc]
    rw [loadGroupsStep_eq, h1, h2]
    rfl

/-- C3 witness: operation 0 for "b" fails: "b" is neither loaded nor loading
nor pending, the rejection reaches every caller awaiting operation 0, and a
retry issues a new fetch (operation 1) for ["b"]. -/
theorem claim_C3_witness :
    (demoLoadB.sys.ops.get? 0 = some ⟨["b"], none⟩ ∧
        (∀ g ∈ (⟨["b"], none⟩ : Op).fresh, ¬ g ∈ demoLoadB.sys.store.loaded)) ∧
      (¬ "b" ∈ (settleFailure demoLoadB.sys 0).store.loaded ∧
          ¬ "b" ∈ (settleFailure demoLoadB.sys 0).store.loading ∧
          (settleFailure demoLoadB.sys 0).store.pending "b" = none) ∧
      callRejectedB (settleFailure demoLoadB.sys 0) [0] = true ∧
      (loadGroupsStep true (settleFailure demoLoadB.sys 0).store.loaded
          (settleFailure demoLoadB.sys 0).store.loading ["b"]
          (settleFailure demoLoadB.sys 0)).issued
        = some ((settleFailure demoLoadB.sys 0).ops.length, ["b"]) := by
  have hop : demoLoadB.sys.ops.get? 0 = some ⟨["b"], none⟩ := rfl
  have hnl : ∀ g ∈ (⟨["b"], none⟩ : Op).fresh, ¬ g ∈ demoLoadB.sys.store.loaded := by decide
  have hc := claim_C3 demoLoadB.sys 0 ⟨["b"], none⟩ hop hnl
  exact ⟨⟨hop, hnl⟩, hc.1 "b" (by decide), hc.2.2.1 [0] (by decide),
    hc.2.2.2 "b" (by decide)⟩

/-- C5 counterexample: operation 0 (fetching "g") is in flight when the locale
changes; after the reset "g" is tracked nowhere (not loading, not pending,
not loaded) — yet when the stale fetch later resolves, its per-group table IS
merged into the reset translation table and "g" IS added to the loaded set,
because the success path of the fetch promise merges unconditionally. -/
theorem claim_C5_counterexample :
    (localeEffect (loadGroupsStep true demoStart.store.loaded demoStart.store.loading ["g"]
          demoStart).sys "fr").store.pending "g" = none ∧
      ¬ "g" ∈ (localeEffect (loadGroupsStep true demoStart.store.loaded demoStart.store.loading
          ["g"] demoStart).sys "fr").store.loading ∧
      ¬ "g" ∈ (localeEffect (loadGroupsStep true demoStart.store.loaded demoStart.store.loading
          ["g"] demoStart).sys "fr").store.loaded ∧
      opSettledB (localeEffect (loadGroupsStep true demoStart.store.loaded
          demoStart.store.loading ["g"] demoStart).sys "fr") 0 = false ∧
      (settleSuccess (localeEffect (loadGroupsStep true demoStart.store.loaded
            demoStart.store.loading ["g"] demoStart).sys "fr") 0
          [("g", JsValue.vObj [("k", JsValue.vStr "v")])]).store.table "g"
        = some (JsValue.vObj [("k", JsValue.vStr "v")]) ∧
      "g" ∈ (settleSuccess (localeEffect (loadGroupsStep true demoStart.store.loaded
            demoStart.store.loading ["g"] demoStart).sys "fr") 0
          [("g", JsValue.vObj [("k", JsValue.vStr "v")])]).store.loaded :=
  ⟨rfl, by decide, by decide, rfl, rfl, by decide⟩

/-- C5 amended: a fetch in flight at a locale change runs to completion (the
reset does not touch the operations), and when it later resolves its result
is NOT disregarded: its per-group tables are merged into the reset table and
its fresh names are added to the loaded set, since the merge step has no
relevance guard. -/
theorem claim_C5_amended (s : Sys) (loc : String) (i : Nat) (op : Op) (tr : Table)
    (hop : s.ops.get? i = some op) (hloc : ¬ s.prevLocale = loc) :
    (localeEffect s loc).ops.get? i = some op ∧
      (localeEffect s loc).store.pending = (fun _ => none) ∧
      (localeEffect s loc).store.loading = [] ∧
      (∀ g v, tableGet tr g = some v →
        (settleSuccess (localeEffect s loc) i tr).store.table g = some v) ∧
      (∀ g ∈ op.fresh, g ∈ (settleSuccess (localeEffect s loc) i tr).store.loaded) := by
  have he : localeEffect s loc =
      { s with
        prevLocale := loc,
        store :=
          { table := fun g => tableGet s.initTable g,
            loaded := initialLoadedSet s.initTable s.initLoadedArg,
            loading := [],
            pending := fun _ => none } } := by
    simp only [localeEffect, if_neg hloc]
  have hop2 : (localeEffect s loc).ops.get? i = some op := by rw [he]; exact hop
  have htab : (settleSuccess (localeEffect s loc) i tr).store.table
      = fun g => match tableGet tr g with
                 | some v => some v
                 | none => (localeEffect s loc).store.table g := by
    simp only [settleSuccess, hop2]
  have hload : (settleSuccess (localeEffect s loc) i tr).store.loaded
      = addAll (localeEffect s loc).store.loaded op.fresh := by
    simp only [settleSuccess, hop2]
  refine ⟨hop2, by rw [he], by rw [he], ?_, ?_⟩
  · intro g v hv
    rw [htab]
    simp only [hv]
  · intro g hgf
    rw [hload]
    exact (mem_addAll _ _).mpr (Or.inr hgf)

/-- C5 witness: the concrete stale-settlement scenario run through the
amended theorem. -/
theorem claim_C5_witness :
    ((loadGroupsStep true demoStart.store.loaded demoStart.store.loading ["g"]
          demoStart).sys.ops.get? 0 = some ⟨["g"], none⟩ ∧
        ¬ (loadGroupsStep true demoStart.store.loaded demoStart.store.loading ["g"]
            demoStart).sys.prevLocale = "fr") ∧
      (settleSuccess (localeEffect (loadGroupsStep true demoStart.store.loaded
            demoStart.store.loading ["g"] demoStart).sys "fr") 0
          [("g", JsValue.vObj [("k", JsValue.vStr "v")])]).store.table "g"
        = some (JsValue.vObj [("k", JsValue.vStr "v")]) ∧
      "g" ∈ (settleSuccess (localeEffect (loadGroupsStep true demoStart.store.loaded
            demoStart.store.loading ["g"] demoStart).sys "fr") 0
          [("g", JsValue.vObj [("k", JsValue.vStr "v")])]).store.loaded := by
  have hop : (loadGroupsStep true demoStart.store.loaded demoStart.store.loading ["g"]
      demoStart).sys.ops.get? 0 = some ⟨["g"], none⟩ := rfl
  have hloc : ¬ (loadGroupsStep true demoStart.store.loaded demoStart.store.loading ["g"]
      demoStart).sys.prevLocale = "fr" := by decide
  have hc := claim_C5_amended _ "fr" 0 ⟨["g"], none⟩
    [("g", JsValue.vObj [("k", JsValue.vStr "v")])] hop hloc
  exact ⟨⟨hop, hloc⟩, hc.2.2.2.1 "g" _ rfl, hc.2.2.2.2 "g" (by decide)⟩

/-- C6 counterexample: `loadGroups(["a","a"])` from a state where "a" is
neither loaded, loading nor pending issues a batched fetch whose group list
is ["a","a"]: duplicates in `names` do not collapse; the name "a" appears
twice in the single batch. -/
theorem claim_C6_counterexample :
    (loadGroupsStep true demoStart.store.loaded demoStart.store.loading ["a", "a"]
        demoStart).issued = some (0, ["a", "a"]) ∧
      (["a", "a"] : List String).count "a" = 2 :=
  ⟨rfl, rfl⟩

/-- C6 amended: `loadGroups` filters per element without deduplication: a name
is in the issued batch exactly when it is in `names` and passes the observed
loaded/loading sets and the pending map, each such name keeps its
multiplicity from `names` (duplicates survive into the single batched
request), exactly one operation is created, it is awaited by the caller, and
the pending map registers it under every batch name. -/
theorem claim_C6_amended (obsLoaded obsLoading names : List String) (s : Sys)
    (j : Nat) (batch : List String)
    (h : (loadGroupsStep true obsLoaded obsLoading names s).issued = some (j, batch)) :
    (∀ g, g ∈ batch ↔
        g ∈ names ∧ ¬ g ∈ obsLoaded ∧ ¬ g ∈ obsLoading ∧ s.store.pending g = none) ∧
      (∀ g ∈ batch, batch.count g = names.count g) ∧
      j = s.ops.length ∧
      (loadGroupsStep true obsLoaded obsLoading names s).sys.ops = s.ops ++ [⟨batch, none⟩] ∧
      j ∈ (loadGroupsStep true obsLoaded obsLoading names s).waits ∧
      (∀ g ∈ batch,
        (loadGroupsStep true obsLoaded obsLoading names s).sys.store.pending g = some j) := by
  rw [loadGroupsStep_eq] at h ⊢
  by_cases h1 : (toConsider obsLoaded obsLoading names).isEmpty
  · rw [if_pos h1] at h
    exact absurd h (by simp)
  · rw [if_neg h1] at h ⊢
    by_cases h2 : (freshOf s (toConsider obsLoaded obsLoading names)).isEmpty
    · rw [if_pos h2] at h
      exact absurd h (by simp)
    · rw [if_neg h2] at h ⊢
      injection h with hpair
      injection hpair with hj hb
      subst hj
      subst hb
      refine ⟨?_, ?_, rfl, rfl, ?_, ?_⟩
      · intro g
        constructor
        · intro hm
          obtain ⟨htc, hpn⟩ := mem_freshOf.mp hm
          obtain ⟨hn, hnl, hnld⟩ := mem_toConsider.mp htc
          exact ⟨hn, hnl, hnld, hpn⟩
        · rintro ⟨hn, hnl, hnld, hpn⟩
          exact mem_freshOf.mpr ⟨mem_toConsider.mpr ⟨hn, hnl, hnld⟩, hpn⟩
      · intro g hm
        obtain ⟨htc, hpn⟩ := mem_freshOf.mp hm
        obtain ⟨_, hnl, hnld⟩ := mem_toConsider.mp htc
        have hp2 : (s.store.pending g).isNone = true := by simp [hpn]
        have hp1 : decide (¬ g ∈ obsLoaded ∧ ¬ g ∈ obsLoading) = true := by
          simp [hnl, hnld]
        simp only [freshOf, toConsider]
        exact (List.count_filter (p := fun x => (s.store.pending x).isNone) hp2).trans
          (List.count_filter (p := fun x => decide (¬ x ∈ obsLoaded ∧ ¬ x ∈ obsLoading)) hp1)
      · exact List.mem_append_right _ (by simp)
      · intro g hm
        show setAll s.store.pending (freshOf s (toConsider obsLoaded obsLoading names))
            s.ops.length g = some s.ops.length
        rw [get_setAll, if_pos hm]

/-- C6 witness: the duplicate batch of the counterexample run through the
amended characterization: "a" is in the batch because it is fresh, and the
single operation 0 is registered in pending under "a". -/
theorem claim_C6_witness :
    ((loadGroupsStep true demoStart.store.loaded demoStart.store.loading ["a", "a"]
          demoStart).issued = some (0, ["a", "a"])) ∧
      ("a" ∈ (["a", "a"] : List String) ↔
        "a" ∈ (["a", "a"] : List String) ∧ ¬ "a" ∈ demoStart.store.loaded ∧
          ¬ "a" ∈ demoStart.store.loading ∧ demoStart.store.pending "a" = none) ∧
      (loadGroupsStep true demoStart.store.loaded demoStart.store.loading ["a", "a"]
          demoStart).sys.store.pending "a" = some 0 := by
  have hc := claim_C6_amended demoStart.store.loaded demoStart.store.loading ["a", "a"]
    demoStart 0 ["a", "a"] rfl
  exact ⟨rfl, hc.1 "a", hc.2.2.2.2.2 "a" (by decide)⟩
